import Mathlib

/-!
Verification of the EleFits core against its specification.

The development shallowly embeds the parts of the repository that the
checked properties are about:

* the Addressing Engine (`index`, negative-position resolution, bounds
  checking) of `Raster`/`Column` element access;
* the assoc-list view of a binary table used by the column I/O engine
  (write / read by name, multi-column sequence writes, segment writes);
* `column_index` from `EL_CFitsIOWrapper/src/lib/BintableWrapper.cpp`
  together with a model of the external `fits_get_colnum` service;
* the allocation discipline of the variable-length read path of
  `EL_CFitsIOWrapper/EL_CFitsIOWrapper/BintableWrapper.h`.

Machine integers (`long` positions and offsets) are embedded as `Int`;
the widths involved are never exercised near overflow by the properties
below, which quantify over mathematical integers as the spec does.
-/

namespace EleFits

/-- Error taxonomy of the spec (section 7): the constructors used by the
embedded operations. -/
inductive FitsErr
  | outOfBounds
  | notFound
  | sizeMismatch
  | io
deriving DecidableEq, Repr

/-- Decidable equality of operation outcomes. -/
instance {ε α : Type} [DecidableEq ε] [DecidableEq α] :
    DecidableEq (Except ε α) := fun x y =>
  match x, y with
  | Except.ok a, Except.ok b =>
    if h : a = b then Decidable.isTrue (by rw [h])
    else Decidable.isFalse (fun hc => h (Except.ok.inj hc))
  | Except.error e, Except.error f =>
    if h : e = f then Decidable.isTrue (by rw [h])
    else Decidable.isFalse (fun hc => h (Except.error.inj hc))
  | Except.ok _, Except.error _ =>
    Decidable.isFalse (fun hc => Except.noConfusion hc)
  | Except.error _, Except.ok _ =>
    Decidable.isFalse (fun hc => Except.noConfusion hc)

/-! ### Addressing Engine

The implementation header (`Raster.h` / `impl/Raster.hpp`) is not among
the provided sources; only its test (`Raster_test.cpp`) is.  The
functions below are therefore modelled from the spec formula
`offset = pos[0] + shape[0]*(pos[1] + shape[1]*(pos[2] + ...))`,
which is also the exact expression checked by `index_test`
(Raster_test.cpp line 47). -/

/-- Modelled from the spec: the fixed-dimensionality addressing recursion
`Internal::IndexRecursionImpl<n>::index` (absent from the sources), the
unrolled recursion `offset = pos[0] + shape[0]*(pos[1] + shape[1]*(...))`. -/
def index : List Int → List Int → Int
  | s :: ss, p :: ps => p + s * index ss ps
  | _, _ => 0

/-- Modelled from the spec: the variable-dimensionality addressing
`Internal::IndexRecursionImpl<-1>::index` (absent from the sources), the
same formula evaluated iteratively: a loop from the last dimension down,
`acc = pos[i] + shape[i] * acc`. -/
def indexIterative (shape pos : List Int) : Int :=
  ((shape.zip pos).reverse).foldl (fun acc sp => sp.2 + sp.1 * acc) 0

/-- Product of the shape entries: `size()` of a raster. -/
def shapeSize (shape : List Int) : Int := shape.prod

/-- Bounds predicate on a resolved position: `0 ≤ p[i] < shape[i]` in every
dimension, and the dimensionalities agree. -/
def inBounds : List Int → List Int → Bool
  | [], [] => true
  | s :: ss, p :: ps => decide (0 ≤ p) && decide (p < s) && inBounds ss ps
  | _, _ => false

/-- A shape is valid when all its entries are positive. -/
@[reducible] def ValidShape (shape : List Int) : Prop := ∀ s ∈ shape, 0 < s

/-- Mixed-radix decomposition of an offset, inverse of `index` on valid
shapes. -/
def positionOf : List Int → Int → List Int
  | [], _ => []
  | s :: ss, k => k % s :: positionOf ss (k / s)

/-- Python-style resolution of one position entry against one shape entry:
an entry `p < 0` becomes `shape[i] + p`. -/
def resolveEntry (s p : Int) : Int := if p < 0 then s + p else p

/-- Per-access normalization of a position against a shape. -/
def resolve (shape pos : List Int) : List Int :=
  List.zipWith resolveEntry shape pos

/-- Pre-resolution admissible range: `-shape[i] ≤ p[i] < shape[i]` in every
dimension, and the dimensionalities agree. -/
def inRange : List Int → List Int → Bool
  | [], [] => true
  | s :: ss, p :: ps => decide (-s ≤ p) && decide (p < s) && inRange ss ps
  | _, _ => false

/-- An optional lookup result as an access result. -/
def okOr {α : Type} (x : Option α) : Except FitsErr α :=
  match x with
  | some v => Except.ok v
  | none => Except.error FitsErr.outOfBounds

/-- Modelled from the spec: the bounds-checked element access `at(position)`
of a raster (`Raster::at`, implementation header absent from the sources),
which a column's `at(row, repeatIndex)` instantiates with the
two-dimensional shape `[repeatCount, rowCount]`: each access resolves
negative entries, bounds-checks the resolved position, and reads the
linear buffer at the computed offset; a violation raises OutOfBounds.
Assignment through `at` addresses the same offset as the read modelled
here. -/
def atIndex {α : Type} (shape : List Int) (data : List α) (pos : List Int) :
    Except FitsErr α :=
  let rp := resolve shape pos
  if inBounds shape rp then okOr data[(index shape rp).toNat]?
  else Except.error FitsErr.outOfBounds

/-- The last element of a buffer, as an access result. -/
def lastElem {α : Type} (data : List α) : Except FitsErr α :=
  okOr data.getLast?

/-! ### Binary table column store

The column I/O engine's implementation (`BintableColumns.hpp`,
`BintableWrapper` of the later revisions) is declared but not implemented
in the provided sources, so the operations below are modelled from the
spec: a binary table is viewed column-wise as an association of column
names to column payloads. -/

/-- A binary table data unit, viewed column-wise. -/
abbrev Table (α : Type) : Type := List (String × α)

/-- Modelled from the spec: writing an already-initialized column stores its
payload under the column's name; `init` of a fresh column appends it. -/
def writeColumn {α : Type} (t : Table α) (name : String) (d : α) : Table α :=
  if t.any (fun c => c.1 == name) then
    t.map (fun c => if c.1 == name then (name, d) else c)
  else t ++ [(name, d)]

/-- Modelled from the spec: reading a column by name returns the payload
stored under the first column with that name, or NotFound. -/
def readColumn {α : Type} (t : Table α) (name : String) : Except FitsErr α :=
  match t.lookup name with
  | some d => Except.ok d
  | none => Except.error FitsErr.notFound

/-- Column payloads of the small-table round-trip: the five element type
classes of the claim. Floating-point values are modelled as exact
rationals; the round-trip property is about storage, which the spec
requires to return the written values unchanged. -/
inductive ColData
  | ints (xs : List Int)
  | floats (xs : List Rat)
  | doubles (xs : List Rat)
  | vec2s (xs : List (Rat × Rat))
  | strs (xs : List String)
deriving DecidableEq

/-- The small-table write sequence of the round-trip scenario: five typed
columns written in order into an empty binary table extension. -/
def writeFive (n1 n2 n3 n4 n5 : String) (d1 : List Int) (d2 d3 : List Rat)
    (d4 : List (Rat × Rat)) (d5 : List String) : Table ColData :=
  writeColumn (writeColumn (writeColumn (writeColumn (writeColumn
    ([] : Table ColData)
    n1 (ColData.ints d1)) n2 (ColData.floats d2)) n3 (ColData.doubles d3))
    n4 (ColData.vec2s d4)) n5 (ColData.strs d5)

/-- Modelled from the spec (and the doc of `columnsRowCount` in
EleFits/EleFits/BintableColumns.h lines 574-580: "Throw if columns do not
have the same size"): the common row count of a sequence of columns,
SizeMismatch otherwise. A column payload is its per-row data list. -/
def columnsRowCount {α : Type} (cols : List (String × List α)) :
    Except FitsErr Nat :=
  match cols with
  | [] => Except.ok 0
  | c :: cs =>
    if cs.all (fun x => x.2.length == c.2.length) then Except.ok c.2.length
    else Except.error FitsErr.sizeMismatch

/-- Modelled from the spec: the multi-column sequence write validates the
common row count before any I/O is attempted, then writes each column in
turn. -/
def writeSeq {α : Type} (t : Table (List α)) (cols : List (String × List α)) :
    Except FitsErr (Table (List α)) :=
  match columnsRowCount cols with
  | Except.error e => Except.error e
  | Except.ok _ =>
    Except.ok (cols.foldl (fun acc c => writeColumn acc c.1 c.2) t)

/-- The file state after a sequence write: unchanged when the operation
raises. -/
def tableAfterWriteSeq {α : Type} (t : Table (List α))
    (cols : List (String × List α)) : Table (List α) :=
  match writeSeq t cols with
  | Except.ok t2 => t2
  | Except.error _ => t

/-- Modelled from the spec: segment write of a single column whose file-side
segment starts at row `first`: when the segment's upper bound exceeds the
current row count the table is automatically extended with zero-valued
rows, then rows `[first, first + segment size)` are overwritten with the
segment. -/
def writeSegment (col : List Int) (first : Nat) (seg : List Int) : List Int :=
  let ext := if col.length < first + seg.length
    then col ++ List.replicate (first + seg.length - col.length) 0
    else col
  ext.take first ++ seg ++ ext.drop (first + seg.length)

/-! ### Column lookup by name (EL_CFitsIOWrapper) -/

/-- cfitsio case-sensitivity flag (fitsio.h): `CASESEN` requests
case-sensitive column-name matching, `CASEINSEN` case-insensitive. -/
def CASESEN : Bool := true

/-- ASCII upper-casing of one character, the folding cfitsio applies in
case-insensitive column-name comparison. -/
def upChar (c : Char) : Char :=
  if c.isLower then Char.ofNat (c.toNat - 32) else c

/-- Name matching of the external `fits_get_colnum` service: exact when
`casesen` is set, up to ASCII letter case otherwise. -/
def nameMatches (casesen : Bool) (n templt : String) : Bool :=
  if casesen then n == templt
  else n.toList.map upChar == templt.toList.map upChar

/-- Modelled external service: the column scan of `fits_get_colnum`,
returning the 1-based index of the first column whose name matches the
template. -/
def colScan (casesen : Bool) (templt : String) : List String → Option Nat
  | [] => none
  | n :: ns =>
    if nameMatches casesen n templt then some 1
    else (colScan casesen templt ns).map (fun i => i + 1)

/-- Modelled external service `fits_get_colnum`. -/
def fits_get_colnum (names : List String) (casesen : Bool)
    (templt : String) : Option Nat :=
  colScan casesen templt names

/-- `column_index` from EL_CFitsIOWrapper/src/lib/BintableWrapper.cpp lines
32-38: calls `fits_get_colnum` with `CASESEN` and throws when the status is
an error (column not found). -/
def column_index (names : List String) (name : String) : Except FitsErr Nat :=
  match fits_get_colnum names CASESEN name with
  | some i => Except.ok i
  | none => Except.error FitsErr.notFound

/-! ### Variable-length read path (EL_CFitsIOWrapper), allocation
instrumented

Each operation returns its outcome paired with the number of per-row heap
buffers still live when it returns. -/

/-- `ColumnDispatcher<T*>::read` (EL_CFitsIOWrapper/EL_CFitsIOWrapper/
BintableWrapper.h lines 128-154): allocates one heap buffer per row
(`new T[repeat]`, lines 137-139), then issues one `fits_read_col`; on
failure `may_throw_cfitsio_error` propagates without any `delete[]`, on
success the buffer pointers are returned still live. -/
def ptrRead {α : Type} (fileRows : List α) (readOk : Bool) :
    Except FitsErr (List α) × Nat :=
  let live := fileRows.length
  if readOk then (Except.ok fileRows, live)
  else (Except.error FitsErr.io, live)

/-- `ColumnDispatcher<vector<T>>::read` (same header, lines 156-172): copies
each row buffer into a vector; the per-row `delete[]` is commented out
(line 169, `//TODO keep?`), so no buffer is released on any path. -/
def vecRead {α : Type} (fileRows : List α) (readOk : Bool) :
    Except FitsErr (List α) × Nat :=
  match ptrRead fileRows readOk with
  | (Except.error e, live) => (Except.error e, live)
  | (Except.ok ptrs, live) => (Except.ok ptrs, live)

/-- `ColumnDispatcher<string>::read` (EL_CFitsIOWrapper/src/lib/
BintableWrapper.cpp lines 40-50): converts each row buffer to a string and
releases it (`delete[]` at line 47), but only on the success path; a
failure inside the underlying pointer read still leaks every buffer. -/
def stringRead {α : Type} (fileRows : List α) (readOk : Bool) :
    Except FitsErr (List α) × Nat :=
  match ptrRead fileRows readOk with
  | (Except.error e, live) => (Except.error e, live)
  | (Except.ok ptrs, live) => (Except.ok ptrs, live - ptrs.length)

/-! ### Column containers (EleFitsData) -/

/-- Column metadata: name, unit, repeat count. -/
structure ColumnInfo where
  name : String
  unit : String
  repeatCount : Int
deriving DecidableEq

/-- Modelled from the spec: a column owning its buffer (`VecColumn`, whose
implementation header is absent from the sources). `entriesPerRow` is the
number of buffer entries per row: the repeat count for fixed-repeat numeric
columns, and 1 for string columns, whose buffer stores one text value per
row whatever the repeat count (there the repeat count is the field
width). -/
structure VecColumn (α : Type) where
  info : ColumnInfo
  entriesPerRow : Nat
  data : List α
deriving DecidableEq

/-- Row count, derived from the buffer length and the entries per row. -/
def VecColumn.rowCount {α : Type} (c : VecColumn α) : Nat :=
  c.data.length / c.entriesPerRow

/-- Modelled from the spec: `elementCount()` equals the row count — the row
count is the user-facing size unit, not rowCount × repeatCount. -/
def VecColumn.elementCount {α : Type} (c : VecColumn α) : Nat :=
  c.data.length / c.entriesPerRow

/-- Modelled from the spec: move-extraction of the backing buffer, which
hands the buffer to the caller and empties the column. -/
def VecColumn.moveTo {α : Type} (c : VecColumn α) : List α × VecColumn α :=
  (c.data, VecColumn.mk c.info c.entriesPerRow [])

end EleFits

namespace EleFits

/-- Helper: `index` of a cons. -/
theorem index_cons (s p : Int) (ss ps : List Int) :
    index (s :: ss) (p :: ps) = p + s * index ss ps := rfl

/-- Helper: the iterative evaluation is the fold of the recursion step. -/
theorem indexIterative_eq_foldr (shape pos : List Int) :
    indexIterative shape pos =
      (shape.zip pos).foldr (fun sp acc => sp.2 + sp.1 * acc) 0 := by
  unfold indexIterative
  rw [List.foldl_reverse]

/-- Claim C4: for every shape and position of the same dimensionality, the
fixed-dimensionality (compile-time n, unrolled recursion) and the
variable-dimensionality (runtime n, iterative) implementations of
`index(shape, position)` return the same offset. -/
theorem index_fixed_eq_variable (shape pos : List Int)
    (_h : pos.length = shape.length) :
    index shape pos = indexIterative shape pos := by
  rw [indexIterative_eq_foldr]
  clear _h
  induction shape generalizing pos with
  | nil => cases pos <;> rfl
  | cons s ss ih =>
    cases pos with
    | nil => rfl
    | cons p ps =>
      rw [index_cons, List.zip_cons_cons, List.foldr_cons, ih ps]

/-- Witness for C4 at a concrete shape and position. -/
theorem index_fixed_eq_variable_witness :
    ([5, 6, 7] : List Int).length = ([2, 3, 4] : List Int).length ∧
      index [2, 3, 4] [5, 6, 7] = indexIterative [2, 3, 4] [5, 6, 7] :=
  ⟨by decide, index_fixed_eq_variable [2, 3, 4] [5, 6, 7] (by decide)⟩

/-- Helper: unfolding `inBounds` on a cons cell. -/
theorem inBounds_cons {s p : Int} {ss ps : List Int} :
    inBounds (s :: ss) (p :: ps) = true ↔
      0 ≤ p ∧ p < s ∧ inBounds ss ps = true := by
  simp [inBounds, Bool.and_eq_true, decide_eq_true_iff, and_assoc]

/-- Helper: the shape product on a cons cell. -/
theorem shapeSize_cons (s : Int) (ss : List Int) :
    shapeSize (s :: ss) = s * shapeSize ss := by
  simp [shapeSize]

/-- Helper: a valid shape has positive size. -/
theorem shapeSize_pos {shape : List Int} (h : ValidShape shape) :
    0 < shapeSize shape := by
  induction shape with
  | nil => simp [shapeSize]
  | cons s ss ih =>
    rw [shapeSize_cons]
    have hs : 0 < s := h s (List.mem_cons_self s ss)
    have hss : ValidShape ss := fun x hx => h x (List.mem_cons_of_mem s hx)
    exact mul_pos hs (ih hss)

/-- Helper: on in-bounds positions the offset lies in `[0, size)`. -/
theorem index_range : ∀ {shape pos : List Int}, inBounds shape pos = true →
    0 ≤ index shape pos ∧ index shape pos < shapeSize shape := by
  intro shape
  induction shape with
  | nil =>
    intro pos h
    cases pos with
    | nil => simp [index, shapeSize]
    | cons p ps => simp [inBounds] at h
  | cons s ss ih =>
    intro pos h
    cases pos with
    | nil => simp [inBounds] at h
    | cons p ps =>
      rw [inBounds_cons] at h
      obtain ⟨hp0, hps, hrest⟩ := h
      obtain ⟨ih0, ihlt⟩ := ih hrest
      have hs : 0 < s := lt_of_le_of_lt hp0 hps
      rw [index_cons, shapeSize_cons]
      refine ⟨add_nonneg hp0 (mul_nonneg hs.le ih0), ?_⟩
      have h1 : index ss ps + 1 ≤ shapeSize ss := by omega
      have h2 : s * (index ss ps + 1) ≤ s * shapeSize ss :=
        mul_le_mul_of_nonneg_left h1 hs.le
      rw [mul_add, mul_one] at h2
      omega

/-- Helper: `index` is injective on in-bounds positions of a shape. -/
theorem index_inj : ∀ (shape pos pos' : List Int),
    inBounds shape pos = true → inBounds shape pos' = true →
    index shape pos = index shape pos' → pos = pos' := by
  intro shape
  induction shape with
  | nil =>
    intro pos pos' h h' _
    cases pos with
    | nil =>
      cases pos' with
      | nil => rfl
      | cons q qs => simp [inBounds] at h'
    | cons p ps => simp [inBounds] at h
  | cons s ss ih =>
    intro pos pos' h h' heq
    cases pos with
    | nil => simp [inBounds] at h
    | cons p ps =>
      cases pos' with
      | nil => simp [inBounds] at h'
      | cons q qs =>
        rw [inBounds_cons] at h h'
        obtain ⟨hp0, hps, hrest⟩ := h
        obtain ⟨hq0, hqs, hrest'⟩ := h'
        rw [index_cons, index_cons] at heq
        have hs : 0 < s := lt_of_le_of_lt hp0 hps
        have htail : index ss ps = index ss qs := by
          rcases lt_trichotomy (index ss ps) (index ss qs) with hAB | hAB | hAB
          · exfalso
            have h1 : index ss ps + 1 ≤ index ss qs := by omega
            have h2 : s * (index ss ps + 1) ≤ s * index ss qs :=
              mul_le_mul_of_nonneg_left h1 hs.le
            rw [mul_add, mul_one] at h2
            omega
          · exact hAB
          · exfalso
            have h1 : index ss qs + 1 ≤ index ss ps := by omega
            have h2 : s * (index ss qs + 1) ≤ s * index ss ps :=
              mul_le_mul_of_nonneg_left h1 hs.le
            rw [mul_add, mul_one] at h2
            omega
        have hhead : p = q := by rw [htail] at heq; omega
        rw [hhead, ih ps qs hrest hrest' htail]

/-- Helper: `positionOf` inverts `index` on `[0, size)` for valid shapes. -/
theorem index_positionOf : ∀ (shape : List Int), ValidShape shape →
    ∀ k : Int, 0 ≤ k → k < shapeSize shape →
      inBounds shape (positionOf shape k) = true ∧
        index shape (positionOf shape k) = k := by
  intro shape
  induction shape with
  | nil =>
    intro _ k hk0 hk1
    rw [shapeSize] at hk1
    simp at hk1
    constructor
    · rfl
    · simp [positionOf, index]
      omega
  | cons s ss ih =>
    intro hv k hk0 hk1
    have hs : 0 < s := hv s (List.mem_cons_self s ss)
    have hss : ValidShape ss := fun x hx => hv x (List.mem_cons_of_mem s hx)
    rw [shapeSize_cons] at hk1
    have hq0 : 0 ≤ k / s := Int.ediv_nonneg hk0 hs.le
    have hqlt : k / s < shapeSize ss := by
      rw [Int.ediv_lt_iff_lt_mul hs]
      rw [mul_comm] at hk1
      exact hk1
    obtain ⟨ihB, ihIdx⟩ := ih hss (k / s) hq0 hqlt
    constructor
    · rw [positionOf, inBounds_cons]
      exact ⟨Int.emod_nonneg k hs.ne', Int.emod_lt_of_pos k hs, ihB⟩
    · rw [positionOf, index_cons, ihIdx]
      exact Int.emod_add_ediv k s

/-- Claim C1: for every valid shape (all entries positive), `index`
restricted to in-bounds non-negative positions is a bijection onto
`[0, product(shape))`, with offset
`pos[0] + shape[0]*(pos[1] + shape[1]*(pos[2] + ...))`: it maps into the
range, is injective there, and every offset in the range is attained. -/
theorem index_bijection (shape : List Int) (hshape : ValidShape shape) :
    (∀ pos, inBounds shape pos = true →
        0 ≤ index shape pos ∧ index shape pos < shapeSize shape) ∧
      (∀ pos pos', inBounds shape pos = true → inBounds shape pos' = true →
        index shape pos = index shape pos' → pos = pos') ∧
      (∀ k : Int, 0 ≤ k → k < shapeSize shape →
        ∃ pos, inBounds shape pos = true ∧ index shape pos = k) :=
  ⟨fun _ h => index_range h,
    fun pos pos' h h' => index_inj shape pos pos' h h',
    fun k hk0 hk1 => ⟨positionOf shape k, index_positionOf shape hshape k hk0 hk1⟩⟩

/-- Witness for C1 at the concrete shape `[2, 3]`. -/
theorem index_bijection_witness :
    ValidShape [2, 3] ∧
      ((∀ pos, inBounds [2, 3] pos = true →
          0 ≤ index [2, 3] pos ∧ index [2, 3] pos < shapeSize [2, 3]) ∧
        (∀ pos pos', inBounds [2, 3] pos = true → inBounds [2, 3] pos' = true →
          index [2, 3] pos = index [2, 3] pos' → pos = pos') ∧
        (∀ k : Int, 0 ≤ k → k < shapeSize [2, 3] →
          ∃ pos, inBounds [2, 3] pos = true ∧ index [2, 3] pos = k)) :=
  ⟨by decide, index_bijection [2, 3] (by decide)⟩

/-- Helper: unfolding `inRange` on a cons cell. -/
theorem inRange_cons {s p : Int} {ss ps : List Int} :
    inRange (s :: ss) (p :: ps) = true ↔
      -s ≤ p ∧ p < s ∧ inRange ss ps = true := by
  simp [inRange, Bool.and_eq_true, decide_eq_true_iff, and_assoc]

/-- Helper: refuting `inRange` on a cons cell. -/
theorem inRange_cons_false {s p : Int} {ss ps : List Int} :
    inRange (s :: ss) (p :: ps) = false ↔
      s ≤ p ∨ p < -s ∨ inRange ss ps = false := by
  rw [Bool.eq_false_iff, Ne, inRange_cons]
  constructor
  · intro h
    by_cases h1 : s ≤ p
    · exact Or.inl h1
    by_cases h2 : p < -s
    · exact Or.inr (Or.inl h2)
    cases hx : inRange ss ps with
    | false => exact Or.inr (Or.inr rfl)
    | true => exact absurd ⟨by omega, by omega, hx⟩ h
  · intro h hc
    obtain ⟨ha, hb, hcc⟩ := hc
    rcases h with h | h | h
    · omega
    · omega
    · rw [hcc] at h
      simp at h

/-- Helper: the post-resolution bounds check equals the pre-resolution range
check, dimension by dimension. -/
theorem inBounds_resolve : ∀ (shape pos : List Int),
    pos.length = shape.length →
    inBounds shape (resolve shape pos) = inRange shape pos := by
  intro shape
  induction shape with
  | nil =>
    intro pos h
    cases pos with
    | nil => rfl
    | cons p ps => simp at h
  | cons s ss ih =>
    intro pos h
    cases pos with
    | nil => simp at h
    | cons p ps =>
      have hlen : ps.length = ss.length := by simpa using h
      show inBounds (s :: ss) (resolveEntry s p :: resolve ss ps)
          = inRange (s :: ss) (p :: ps)
      show (decide (0 ≤ resolveEntry s p) && decide (resolveEntry s p < s)
            && inBounds ss (resolve ss ps))
          = (decide (-s ≤ p) && decide (p < s) && inRange ss ps)
      rw [ih ps hlen]
      congr 1
      rw [Bool.eq_iff_iff]
      simp only [Bool.and_eq_true, decide_eq_true_iff]
      unfold resolveEntry
      by_cases hp : p < 0
      · rw [if_pos hp]
        omega
      · rw [if_neg hp]
        omega

/-- Helper: resolution is idempotent on positions whose resolution is in
bounds. -/
theorem resolve_resolve : ∀ (shape pos : List Int),
    inBounds shape (resolve shape pos) = true →
    resolve shape (resolve shape pos) = resolve shape pos := by
  intro shape
  induction shape with
  | nil => intro pos _; rfl
  | cons s ss ih =>
    intro pos h
    cases pos with
    | nil => simp [resolve, inBounds] at h
    | cons p ps =>
      have hcons : resolve (s :: ss) (p :: ps)
          = resolveEntry s p :: resolve ss ps := rfl
      rw [hcons] at h ⊢
      rw [inBounds_cons] at h
      obtain ⟨h0, _, hrest⟩ := h
      show resolveEntry s (resolveEntry s p) :: resolve ss (resolve ss ps)
          = resolveEntry s p :: resolve ss ps
      rw [ih ps hrest]
      have hre : resolveEntry s (resolveEntry s p) = resolveEntry s p := by
        unfold resolveEntry at h0 ⊢
        rw [if_neg (by omega)]
      rw [hre]

/-- Helper: resolving the all-(-1) position yields the componentwise last
position. -/
theorem resolve_neg_one : ∀ shape : List Int,
    resolve shape (List.replicate shape.length (-1))
      = shape.map (fun s => s - 1) := by
  intro shape
  induction shape with
  | nil => rfl
  | cons s ss ih =>
    show resolve (s :: ss) ((-1) :: List.replicate ss.length (-1))
        = (s - 1) :: ss.map (fun s => s - 1)
    show resolveEntry s (-1) :: resolve ss (List.replicate ss.length (-1))
        = (s - 1) :: ss.map (fun s => s - 1)
    rw [ih]
    have : resolveEntry s (-1) = s - 1 := by
      unfold resolveEntry
      rw [if_pos (by norm_num : (-1 : Int) < 0)]
      ring
    rw [this]

/-- Helper: the componentwise last position is in bounds on valid shapes. -/
theorem inBounds_last : ∀ {shape : List Int}, ValidShape shape →
    inBounds shape (shape.map (fun s => s - 1)) = true := by
  intro shape
  induction shape with
  | nil => intro _; rfl
  | cons s ss ih =>
    intro hv
    have hs : 0 < s := hv s (List.mem_cons_self s ss)
    have hss : ValidShape ss := fun x hx => hv x (List.mem_cons_of_mem s hx)
    rw [List.map_cons, inBounds_cons]
    exact ⟨by omega, by omega, ih hss⟩

/-- Helper: the componentwise last position has the last offset. -/
theorem index_last : ∀ {shape : List Int}, ValidShape shape →
    index shape (shape.map (fun s => s - 1)) = shapeSize shape - 1 := by
  intro shape
  induction shape with
  | nil => intro _; simp [index, shapeSize]
  | cons s ss ih =>
    intro hv
    have hss : ValidShape ss := fun x hx => hv x (List.mem_cons_of_mem s hx)
    rw [List.map_cons, index_cons, ih hss, shapeSize_cons, mul_sub, mul_one]
    ring

/-- Claim C2: for every raster or column and every position with some
negative entry `p` in dimension `i`, element access resolves that entry to
`shape[i] + p` on each access, so `at(position)` returns (and assigns to)
the same element as `at(normalized(position))`; in particular the
all-`(-1)` position addresses the last element of the buffer. -/
theorem at_resolves_negatives {α : Type} (shape pos : List Int)
    (data : List α)
    (hdim : pos.length = shape.length)
    (hrange : inRange shape pos = true)
    (hvalid : ValidShape shape)
    (hlen : (data.length : Int) = shapeSize shape) :
    atIndex shape data pos = atIndex shape data (resolve shape pos) ∧
      atIndex shape data (List.replicate shape.length (-1))
        = lastElem data := by
  have hb : inBounds shape (resolve shape pos) = true := by
    rw [inBounds_resolve shape pos hdim]
    exact hrange
  constructor
  · unfold atIndex
    rw [resolve_resolve shape pos hb]
  · have h1 := resolve_neg_one shape
    have h2 := inBounds_last hvalid
    have h3 := index_last hvalid
    have hpos : 0 < shapeSize shape := shapeSize_pos hvalid
    simp only [atIndex, h1, h2, if_true]
    rw [h3, lastElem, List.getLast?_eq_getElem?]
    have h4 : (shapeSize shape - 1).toNat = data.length - 1 := by omega
    rw [h4]

/-- Witness for C2 on a 4-by-3 raster with the position `[1, -1]`. -/
theorem at_resolves_negatives_witness :
    (([1, -1] : List Int).length = ([4, 3] : List Int).length ∧
      inRange [4, 3] [1, -1] = true ∧ ValidShape [4, 3] ∧
      ((([0, 1, 2, 3, 4, 5, 6, 7, 8, 9, 10, 11] : List Int).length : Int)
        = shapeSize [4, 3])) ∧
      (atIndex [4, 3] [0, 1, 2, 3, 4, 5, 6, 7, 8, 9, 10, 11] [1, -1]
          = atIndex [4, 3] [0, 1, 2, 3, 4, 5, 6, 7, 8, 9, 10, 11]
              (resolve [4, 3] [1, -1]) ∧
        atIndex [4, 3] [0, 1, 2, 3, 4, 5, 6, 7, 8, 9, 10, 11]
            (List.replicate ([4, 3] : List Int).length (-1))
          = lastElem [0, 1, 2, 3, 4, 5, 6, 7, 8, 9, 10, 11]) :=
  ⟨⟨by decide, by decide, by decide, by decide⟩,
    at_resolves_negatives [4, 3] [1, -1] _
      (by decide) (by decide) (by decide) (by decide)⟩

/-- Helper: the range check fails exactly when some component is at or above
its shape entry or strictly below its negation. -/
theorem inRange_false_iff : ∀ (shape pos : List Int),
    pos.length = shape.length →
    (inRange shape pos = false ↔
      ∃ i, i < shape.length ∧
        (shape.getD i 0 ≤ pos.getD i 0 ∨ pos.getD i 0 < -shape.getD i 0)) := by
  intro shape
  induction shape with
  | nil =>
    intro pos h
    cases pos with
    | nil => simp [inRange]
    | cons p ps => simp at h
  | cons s ss ih =>
    intro pos h
    cases pos with
    | nil => simp at h
    | cons p ps =>
      have hlen : ps.length = ss.length := by simpa using h
      rw [inRange_cons_false]
      constructor
      · intro hf
        rcases hf with h1 | h1 | h1
        · exact ⟨0, by simp, Or.inl (by simpa using h1)⟩
        · exact ⟨0, by simp, Or.inr (by simpa using h1)⟩
        · obtain ⟨i, hi, hcase⟩ := (ih ps hlen).mp h1
          exact ⟨i + 1, by simpa using hi, by simpa using hcase⟩
      · rintro ⟨i, hi, hcase⟩
        cases i with
        | zero =>
          simp only [List.getD_cons_zero] at hcase
          rcases hcase with h1 | h1
          · exact Or.inl h1
          · exact Or.inr (Or.inl h1)
        | succ j =>
          refine Or.inr (Or.inr ((ih ps hlen).mpr ⟨j, ?_, ?_⟩))
          · simpa using hi
          · simpa using hcase

/-- Claim C3: for every raster or column, `at(position)` raises OutOfBounds
exactly when some component `p` of the position satisfies `p ≥ shape[i]` or
`p < -shape[i]` (the resolved position falls outside `[0, shape[i])` in
some dimension); it never clamps or wraps further, and in-bounds accesses
never raise. -/
theorem at_raises_out_of_bounds {α : Type} (shape pos : List Int)
    (data : List α)
    (hdim : pos.length = shape.length)
    (hlen : (data.length : Int) = shapeSize shape) :
    (atIndex shape data pos = Except.error FitsErr.outOfBounds ↔
        inRange shape pos = false) ∧
      (inRange shape pos = true →
        ∃ v, atIndex shape data pos = Except.ok v) ∧
      (inRange shape pos = false ↔
        ∃ i, i < shape.length ∧
          (shape.getD i 0 ≤ pos.getD i 0 ∨ pos.getD i 0 < -shape.getD i 0)) := by
  have hok : inRange shape pos = true →
      ∃ v, atIndex shape data pos = Except.ok v := by
    intro hr
    have hb : inBounds shape (resolve shape pos) = true := by
      rw [inBounds_resolve shape pos hdim]
      exact hr
    have hrange := index_range hb
    have hlt : (index shape (resolve shape pos)).toNat < data.length := by
      omega
    refine ⟨data.get ⟨(index shape (resolve shape pos)).toNat, hlt⟩, ?_⟩
    simp only [atIndex, hb, if_true]
    rw [List.getElem?_eq_getElem hlt]
    rfl
  refine ⟨?_, hok, inRange_false_iff shape pos hdim⟩
  constructor
  · intro herr
    cases hcase : inRange shape pos with
    | false => rfl
    | true =>
      obtain ⟨v, hv⟩ := hok hcase
      rw [hv] at herr
      simp at herr
  · intro hfalse
    have hb := inBounds_resolve shape pos hdim
    simp [atIndex, hb, hfalse]

/-- Witness for C3 on a 4-by-3 raster with the out-of-bounds position
`[4, 0]`. -/
theorem at_raises_out_of_bounds_witness :
    (([4, 0] : List Int).length = ([4, 3] : List Int).length ∧
      ((([0, 1, 2, 3, 4, 5, 6, 7, 8, 9, 10, 11] : List Int).length : Int)
        = shapeSize [4, 3])) ∧
      ((atIndex [4, 3] [0, 1, 2, 3, 4, 5, 6, 7, 8, 9, 10, 11] [4, 0]
            = Except.error FitsErr.outOfBounds ↔
          inRange [4, 3] [4, 0] = false) ∧
        (inRange [4, 3] [4, 0] = true →
          ∃ v, atIndex [4, 3] [0, 1, 2, 3, 4, 5, 6, 7, 8, 9, 10, 11] [4, 0]
            = Except.ok v) ∧
        (inRange [4, 3] [4, 0] = false ↔
          ∃ i, i < ([4, 3] : List Int).length ∧
            (([4, 3] : List Int).getD i 0 ≤ ([4, 0] : List Int).getD i 0 ∨
              ([4, 0] : List Int).getD i 0 < -([4, 3] : List Int).getD i 0))) :=
  ⟨⟨by decide, by decide⟩,
    at_raises_out_of_bounds [4, 3] [4, 0] _ (by decide) (by decide)⟩

/-- Helper: writing a name absent from the table appends the column. -/
theorem writeColumn_fresh {α : Type} (t : Table α) (name : String) (d : α)
    (h : ∀ c ∈ t, c.1 ≠ name) :
    writeColumn t name d = t ++ [(name, d)] := by
  unfold writeColumn
  rw [if_neg]
  intro hany
  obtain ⟨c, hc, hbeq⟩ := List.any_eq_true.mp hany
  exact h c hc (by simpa using hbeq)

/-- Helper: freshness restated on the name column of the table. -/
theorem writeColumn_fresh_names {α : Type} (t : Table α) (name : String)
    (d : α) (h : name ∉ t.map Prod.fst) :
    writeColumn t name d = t ++ [(name, d)] := by
  apply writeColumn_fresh
  intro c hc hceq
  exact h (hceq ▸ List.mem_map_of_mem Prod.fst hc)

/-- Helper: column lookup skips a differently-named head. -/
theorem readColumn_cons_ne {α : Type} (k name : String) (d : α) (t : Table α)
    (h : name ≠ k) :
    readColumn ((k, d) :: t) name = readColumn t name := by
  unfold readColumn
  simp [List.lookup, beq_eq_false_iff_ne.mpr h]

/-- Helper: column lookup finds the head column. -/
theorem readColumn_cons_self {α : Type} (name : String) (d : α)
    (t : Table α) :
    readColumn ((name, d) :: t) name = Except.ok d := by
  unfold readColumn
  simp [List.lookup]

/-- Claim C5: for a table with columns of element types {int, float, double,
fixed-length-vector(2), string}, writing each column and then reading it
back by name returns, for every column, a data vector equal to the one
written. -/
theorem small_table_roundtrip (n1 n2 n3 n4 n5 : String)
    (d1 : List Int) (d2 d3 : List Rat) (d4 : List (Rat × Rat))
    (d5 : List String)
    (hnodup : List.Nodup [n1, n2, n3, n4, n5]) :
    readColumn (writeFive n1 n2 n3 n4 n5 d1 d2 d3 d4 d5) n1
        = Except.ok (ColData.ints d1) ∧
      readColumn (writeFive n1 n2 n3 n4 n5 d1 d2 d3 d4 d5) n2
        = Except.ok (ColData.floats d2) ∧
      readColumn (writeFive n1 n2 n3 n4 n5 d1 d2 d3 d4 d5) n3
        = Except.ok (ColData.doubles d3) ∧
      readColumn (writeFive n1 n2 n3 n4 n5 d1 d2 d3 d4 d5) n4
        = Except.ok (ColData.vec2s d4) ∧
      readColumn (writeFive n1 n2 n3 n4 n5 d1 d2 d3 d4 d5) n5
        = Except.ok (ColData.strs d5) := by
  simp only [List.nodup_cons, List.mem_cons, List.not_mem_nil, or_false,
    not_or, List.nodup_nil, and_true] at hnodup
  obtain ⟨⟨h12, h13, h14, h15⟩, ⟨h23, h24, h25⟩, ⟨h34, h35⟩, h45, -⟩ :=
    hnodup
  have w1 : writeColumn ([] : Table ColData) n1 (ColData.ints d1)
      = [(n1, ColData.ints d1)] := by
    rw [writeColumn_fresh_names _ _ _ (by simp), List.nil_append]
  have w2 : writeColumn [(n1, ColData.ints d1)] n2 (ColData.floats d2)
      = [(n1, ColData.ints d1), (n2, ColData.floats d2)] := by
    rw [writeColumn_fresh_names]
    · rfl
    · intro hmem
      simp at hmem
      exact h12 hmem.symm
  have w3 : writeColumn [(n1, ColData.ints d1), (n2, ColData.floats d2)]
      n3 (ColData.doubles d3)
      = [(n1, ColData.ints d1), (n2, ColData.floats d2),
         (n3, ColData.doubles d3)] := by
    rw [writeColumn_fresh_names]
    · rfl
    · intro hmem
      simp at hmem
      rcases hmem with hh | hh
      · exact h13 hh.symm
      · exact h23 hh.symm
  have w4 : writeColumn [(n1, ColData.ints d1), (n2, ColData.floats d2),
      (n3, ColData.doubles d3)] n4 (ColData.vec2s d4)
      = [(n1, ColData.ints d1), (n2, ColData.floats d2),
         (n3, ColData.doubles d3), (n4, ColData.vec2s d4)] := by
    rw [writeColumn_fresh_names]
    · rfl
    · intro hmem
      simp at hmem
      rcases hmem with hh | hh | hh
      · exact h14 hh.symm
      · exact h24 hh.symm
      · exact h34 hh.symm
  have w5 : writeColumn [(n1, ColData.ints d1), (n2, ColData.floats d2),
      (n3, ColData.doubles d3), (n4, ColData.vec2s d4)] n5
      (ColData.strs d5)
      = [(n1, ColData.ints d1), (n2, ColData.floats d2),
         (n3, ColData.doubles d3), (n4, ColData.vec2s d4),
         (n5, ColData.strs d5)] := by
    rw [writeColumn_fresh_names]
    · rfl
    · intro hmem
      simp at hmem
      rcases hmem with hh | hh | hh | hh
      · exact h15 hh.symm
      · exact h25 hh.symm
      · exact h35 hh.symm
      · exact h45 hh.symm
  have hw : writeFive n1 n2 n3 n4 n5 d1 d2 d3 d4 d5
      = [(n1, ColData.ints d1), (n2, ColData.floats d2),
         (n3, ColData.doubles d3), (n4, ColData.vec2s d4),
         (n5, ColData.strs d5)] := by
    unfold writeFive
    rw [w1, w2, w3, w4, w5]
  refine ⟨?_, ?_, ?_, ?_, ?_⟩
  · rw [hw, readColumn_cons_self]
  · rw [hw, readColumn_cons_ne _ _ _ _ (Ne.symm h12), readColumn_cons_self]
  · rw [hw, readColumn_cons_ne _ _ _ _ (Ne.symm h13),
      readColumn_cons_ne _ _ _ _ (Ne.symm h23), readColumn_cons_self]
  · rw [hw, readColumn_cons_ne _ _ _ _ (Ne.symm h14),
      readColumn_cons_ne _ _ _ _ (Ne.symm h24),
      readColumn_cons_ne _ _ _ _ (Ne.symm h34), readColumn_cons_self]
  · rw [hw, readColumn_cons_ne _ _ _ _ (Ne.symm h15),
      readColumn_cons_ne _ _ _ _ (Ne.symm h25),
      readColumn_cons_ne _ _ _ _ (Ne.symm h35),
      readColumn_cons_ne _ _ _ _ (Ne.symm h45), readColumn_cons_self]

/-- Witness for C5 on a concrete five-column small table. -/
theorem small_table_roundtrip_witness :
    List.Nodup ["NUM", "RADEC", "NAME", "DIST", "MAG"] ∧
      (readColumn (writeFive "NUM" "RADEC" "NAME" "DIST" "MAG"
          [3] [1/2] [] [(1, 2)] ["star"]) "NUM"
          = Except.ok (ColData.ints [3]) ∧
        readColumn (writeFive "NUM" "RADEC" "NAME" "DIST" "MAG"
          [3] [1/2] [] [(1, 2)] ["star"]) "RADEC"
          = Except.ok (ColData.floats [1/2]) ∧
        readColumn (writeFive "NUM" "RADEC" "NAME" "DIST" "MAG"
          [3] [1/2] [] [(1, 2)] ["star"]) "NAME"
          = Except.ok (ColData.doubles []) ∧
        readColumn (writeFive "NUM" "RADEC" "NAME" "DIST" "MAG"
          [3] [1/2] [] [(1, 2)] ["star"]) "DIST"
          = Except.ok (ColData.vec2s [(1, 2)]) ∧
        readColumn (writeFive "NUM" "RADEC" "NAME" "DIST" "MAG"
          [3] [1/2] [] [(1, 2)] ["star"]) "MAG"
          = Except.ok (ColData.strs ["star"])) :=
  ⟨by decide,
    small_table_roundtrip "NUM" "RADEC" "NAME" "DIST" "MAG"
      [3] [1/2] [] [(1, 2)] ["star"] (by decide)⟩

/-- Claim C6: a multi-column sequence write in which the columns do not all
have the same row count raises SizeMismatch before any I/O is attempted,
and the table content is unchanged: afterwards no column shows any newly
written rows. -/
theorem writeSeq_size_mismatch {α : Type} (t : Table (List α))
    (cols : List (String × List α)) (c c' : String × List α)
    (hc : c ∈ cols) (hc' : c' ∈ cols) (hne : c.2.length ≠ c'.2.length) :
    writeSeq t cols = Except.error FitsErr.sizeMismatch ∧
      tableAfterWriteSeq t cols = t ∧
      (∀ name, readColumn (tableAfterWriteSeq t cols) name
        = readColumn t name) := by
  have herr : columnsRowCount cols = Except.error FitsErr.sizeMismatch := by
    cases cols with
    | nil => cases hc
    | cons c0 cs =>
      have hall : ¬ (cs.all (fun x => x.2.length == c0.2.length) = true) := by
        intro hall
        have hlen : ∀ x ∈ c0 :: cs, x.2.length = c0.2.length := by
          intro x hx
          rcases List.mem_cons.mp hx with hh | hh
          · rw [hh]
          · simpa using List.all_eq_true.mp hall x hh
        exact hne (by rw [hlen c hc, hlen c' hc'])
      show (if cs.all (fun x => x.2.length == c0.2.length)
          then Except.ok c0.2.length
          else Except.error FitsErr.sizeMismatch)
        = Except.error FitsErr.sizeMismatch
      rw [if_neg hall]
  have hw : writeSeq t cols = Except.error FitsErr.sizeMismatch := by
    unfold writeSeq
    rw [herr]
  have ht : tableAfterWriteSeq t cols = t := by
    unfold tableAfterWriteSeq
    rw [hw]
  exact ⟨hw, ht, fun name => by rw [ht]⟩

/-- Witness for C6 on a two-column sequence with mismatched row counts. -/
theorem writeSeq_size_mismatch_witness :
    (("A", ([1] : List Int)) ∈ [("A", ([1] : List Int)), ("B", [])] ∧
      ("B", ([] : List Int)) ∈ [("A", ([1] : List Int)), ("B", [])] ∧
      ("A", ([1] : List Int)).2.length ≠ ("B", ([] : List Int)).2.length) ∧
      (writeSeq ([] : Table (List Int)) [("A", [1]), ("B", [])]
          = Except.error FitsErr.sizeMismatch ∧
        tableAfterWriteSeq ([] : Table (List Int)) [("A", [1]), ("B", [])]
          = [] ∧
        (∀ name,
          readColumn
            (tableAfterWriteSeq ([] : Table (List Int))
              [("A", [1]), ("B", [])]) name
            = readColumn ([] : Table (List Int)) name)) :=
  ⟨⟨by decide, by decide, by decide⟩,
    writeSeq_size_mismatch [] [("A", [1]), ("B", [])] ("A", [1]) ("B", [])
      (by decide) (by decide) (by decide)⟩

/-- Claim C7: a segment write whose file-side segment extends past the
current row count automatically extends the table to cover the segment;
afterwards every row strictly between the previous row count and the
segment's first row is zero-valued, the segment rows hold the written
values, and the pre-existing rows before the segment are unchanged. -/
theorem writeSegment_auto_extends (col : List Int) (first : Nat)
    (seg : List Int) (h : col.length < first + seg.length) :
    (writeSegment col first seg).length = first + seg.length ∧
      (∀ r, col.length ≤ r → r < first →
        (writeSegment col first seg)[r]? = some 0) ∧
      (∀ i, i < seg.length →
        (writeSegment col first seg)[first + i]? = seg[i]?) ∧
      (∀ r, r < first → r < col.length →
        (writeSegment col first seg)[r]? = col[r]?) := by
  have hws : writeSegment col first seg
      = (col ++ List.replicate (first + seg.length - col.length) 0).take first
        ++ seg
        ++ (col ++ List.replicate (first + seg.length - col.length) 0).drop
            (first + seg.length) := by
    unfold writeSegment
    rw [if_pos h]
  have hlenE : (col ++ List.replicate (first + seg.length - col.length)
      (0 : Int)).length = first + seg.length := by
    simp only [List.length_append, List.length_replicate]
    omega
  refine ⟨?_, ?_, ?_, ?_⟩
  · rw [hws]
    simp only [List.length_append, List.length_take, List.length_drop, hlenE]
    omega
  · intro r hr1 hr2
    rw [hws]
    rw [List.getElem?_append_left
      (by simp only [List.length_append, List.length_take, hlenE]; omega)]
    rw [List.getElem?_append_left
      (by simp only [List.length_take, hlenE]; omega)]
    rw [List.getElem?_take, if_pos hr2]
    rw [List.getElem?_append_right hr1]
    rw [List.getElem?_replicate, if_pos (by omega)]
  · intro i hi
    rw [hws]
    rw [List.getElem?_append_left
      (by simp only [List.length_append, List.length_take, hlenE]; omega)]
    rw [List.getElem?_append_right
      (by simp only [List.length_take, hlenE]; omega)]
    rw [show first + i
        - ((col ++ List.replicate (first + seg.length - col.length)
            (0 : Int)).take first).length = i from by
      simp only [List.length_take, hlenE]
      omega]
  · intro r hr1 hr2
    rw [hws]
    rw [List.getElem?_append_left
      (by simp only [List.length_append, List.length_take, hlenE]; omega)]
    rw [List.getElem?_append_left
      (by simp only [List.length_take, hlenE]; omega)]
    rw [List.getElem?_take, if_pos hr1]
    rw [List.getElem?_append_left hr2]

/-- Witness for C7: writing segment `[9]` at row 4 of a two-row column. -/
theorem writeSegment_auto_extends_witness :
    ([7, 8] : List Int).length < 4 + ([9] : List Int).length ∧
      ((writeSegment [7, 8] 4 [9]).length = 4 + ([9] : List Int).length ∧
        (∀ r, ([7, 8] : List Int).length ≤ r → r < 4 →
          (writeSegment [7, 8] 4 [9])[r]? = some 0) ∧
        (∀ i, i < ([9] : List Int).length →
          (writeSegment [7, 8] 4 [9])[4 + i]? = ([9] : List Int)[i]?) ∧
        (∀ r, r < 4 → r < ([7, 8] : List Int).length →
          (writeSegment [7, 8] 4 [9])[r]? = ([7, 8] : List Int)[r]?)) :=
  ⟨by decide, writeSegment_auto_extends [7, 8] 4 [9] (by decide)⟩

/-- Helper: the case-sensitive column scan finds exactly the first exact
name match, at its 1-based index. -/
theorem colScan_exact : ∀ (names : List String) (name : String),
    name ∈ names →
    ∃ i, colScan true name names = some (i + 1) ∧ names.getD i "" = name ∧
      ∀ j, j < i → names.getD j "" ≠ name := by
  intro names
  induction names with
  | nil => intro name h; cases h
  | cons n ns ih =>
    intro name h
    by_cases he : n = name
    · refine ⟨0, ?_, ?_, ?_⟩
      · simp [colScan, nameMatches, he]
      · simpa using he
      · intro j hj
        omega
    · have hmem : name ∈ ns := by
        rcases List.mem_cons.mp h with h1 | h1
        · exact absurd h1.symm he
        · exact h1
      obtain ⟨i, hscan, hget, hfirst⟩ := ih name hmem
      refine ⟨i + 1, ?_, ?_, ?_⟩
      · simp [colScan, nameMatches, he, hscan]
      · simpa using hget
      · intro j hj
        cases j with
        | zero => simpa using he
        | succ k =>
          have hk := hfirst k (by omega)
          simpa using hk

/-- Claim C8 counterexample: `column_index` passes CASESEN to
`fits_get_colnum` (BintableWrapper.cpp line 35), so a table containing the
column "NAME" rejects the lookup name "name", although the two names are
equal up to letter case; the claim asserts the lookup succeeds. -/
theorem column_index_not_case_insensitive :
    nameMatches false "name" "NAME" = true ∧ "name" ≠ "NAME" ∧
      column_index ["NAME"] "name" = Except.error FitsErr.notFound :=
  ⟨by decide, by decide, by decide⟩

/-- Claim C8 (amended): column lookup by name is case-sensitive: for every
table containing a column named exactly `name`, `column_index` succeeds and
returns the 1-based index of the first column whose name matches `name`
exactly; names differing in case do not match. -/
theorem column_index_exact (names : List String) (name : String)
    (h : name ∈ names) :
    ∃ i, column_index names name = Except.ok (i + 1) ∧
      names.getD i "" = name ∧ ∀ j, j < i → names.getD j "" ≠ name := by
  obtain ⟨i, hscan, hget, hfirst⟩ := colScan_exact names name h
  refine ⟨i, ?_, hget, hfirst⟩
  unfold column_index fits_get_colnum CASESEN
  rw [hscan]

/-- Witness for C8 (amended) on a two-column table. -/
theorem column_index_exact_witness :
    ("RA" : String) ∈ ["NAME", "RA"] ∧
      ∃ i, column_index ["NAME", "RA"] "RA" = Except.ok (i + 1) ∧
        (["NAME", "RA"].getD i "" = "RA" ∧
          ∀ j, j < i → ["NAME", "RA"].getD j "" ≠ "RA") := by
  refine ⟨by decide, ?_⟩
  obtain ⟨i, h1, h2, h3⟩ := column_index_exact ["NAME", "RA"] "RA" (by decide)
  exact ⟨i, h1, h2, h3⟩

/-- Claim C9 (code bug), evaluated at the failing inputs: a successful
three-row variable-length (`vector<T>`) read returns with all three row
buffers still live (the `delete[]` is commented out), and a failed
underlying read returns with every row buffer still live on both the
vector and string paths; only the string path's success branch frees its
buffers as the claim requires. -/
theorem variable_length_read_leaks :
    (vecRead [[1], [2], [3]] true).2 = 3 ∧
      (vecRead ([[1], [2], [3]] : List (List Int)) true).1
        = Except.ok [[1], [2], [3]] ∧
      (ptrRead ([[1], [2], [3]] : List (List Int)) false).2 = 3 ∧
      (vecRead ([[1], [2], [3]] : List (List Int)) false).2 = 3 ∧
      (stringRead (["a", "b"] : List String) true).2 = 0 ∧
      (stringRead (["a", "b"] : List String) false).2 = 2 := by
  decide

/-- Claim C10: for every column, regardless of element type and repeat
count, `elementCount()` returns the same value as `rowCount()` (the row
count, not rowCount × repeatCount); after move-extraction of the backing
buffer, both return 0. -/
theorem elementCount_eq_rowCount {α : Type} (c : VecColumn α) :
    c.elementCount = c.rowCount ∧
      c.moveTo.1 = c.data ∧
      c.moveTo.2.rowCount = 0 ∧
      c.moveTo.2.elementCount = 0 := by
  refine ⟨rfl, rfl, ?_, ?_⟩ <;>
    simp [VecColumn.moveTo, VecColumn.rowCount, VecColumn.elementCount]

end EleFits
